import Mathlib

/-!
Verification of the TOON codec in `n8n-nodes-json-to-toon`.

The encoder (`flattenObject`, `escapeValue`, `convertObjectToToon`,
`convertArrayToToon`, `estimateTokenSavings`) comes from
`src/nodes/JsonToToon.node.ts`; the decoder (`parseDelimitedLine`,
`setNestedValue`, `parseToon`) from the `ToonToJson` node
(`src/unnamed/part_001`, shipped compiled with `"use strict"` as
`src/unnamed/part_000`).

Modelling conventions:
* JS strings are modelled as `List Char` (`Str`).
* The delimiter and the nested separator are modelled as single
  characters.  The node defaults are the single characters `'|'` and
  `'.'`; for a multi-character delimiter `char === delimiter` in the
  tokenizer would never hold, so every claim speaks about
  single-character delimiters.
* JS numbers (IEEE doubles) are modelled as exact rationals `ℚ`,
  extended with `NaN` and signed infinity where the source can produce
  them (`JsNum`).  Doubles are dyadic rationals, so their exact decimal
  expansions terminate; the bounded search in `qToStr` reflects that.
* The shipped module is strict-mode JavaScript, so assigning a property
  on a primitive value (as `setNestedValue` does when an intermediate
  path segment holds a scalar) throws a `TypeError`; this is modelled
  by returning `none`.
-/

set_option maxHeartbeats 1000000

abbrev Str := List Char

/-! ### Basic JS string primitives -/

/-- The whitespace test of `String.prototype.trim` (and of `Number`'s
string trimming): the ECMAScript WhiteSpace set (TAB, VT, FF, SP, NBSP,
ZWNBSP and the Unicode Space_Separator category) together with the
LineTerminator set (LF, CR, LS, PS). -/
def isWS (c : Char) : Bool :=
  c.toNat == 0x9 || c.toNat == 0xA || c.toNat == 0xB || c.toNat == 0xC ||
  c.toNat == 0xD || c.toNat == 0x20 || c.toNat == 0xA0 || c.toNat == 0x1680 ||
  (0x2000 ≤ c.toNat && c.toNat ≤ 0x200A) ||
  c.toNat == 0x2028 || c.toNat == 0x2029 || c.toNat == 0x202F ||
  c.toNat == 0x205F || c.toNat == 0x3000 || c.toNat == 0xFEFF

/-- Leading-whitespace strip, first half of `String.prototype.trim`. -/
def jsTrimLeft (s : Str) : Str := s.dropWhile isWS

/-- Trailing-whitespace strip, second half of `String.prototype.trim`. -/
def jsTrimRight (s : Str) : Str := ((s.reverse).dropWhile isWS).reverse

/-- `s.trim()`. -/
def jsTrim (s : Str) : Str := jsTrimRight (jsTrimLeft s)

/-- `s.split(c)` for a single-character separator: JS semantics,
`"".split(c) = [""]`. -/
def splitOnChar (c : Char) : Str → List Str
  | [] => [[]]
  | x :: rest =>
    if x = c then
      [] :: splitOnChar c rest
    else
      match splitOnChar c rest with
      | [] => [[x]]
      | r :: rs => (x :: r) :: rs

/-- `parts.join(d)` for a single-character separator. -/
def joinD (d : Char) : List Str → Str
  | [] => []
  | [x] => x
  | x :: y :: rest => x ++ d :: joinD d (y :: rest)

/-- `s.startsWith(p)` (argument order: pattern first). -/
def startsWithL : Str → Str → Bool
  | [], _ => true
  | _ :: _, [] => false
  | a :: as, b :: bs => if a = b then startsWithL as bs else false

/-- `s.replace(pat, '')` for a plain-string pattern: remove the first
(leftmost) occurrence of `pat`, if any. -/
def removeFirst (pat : Str) (s : Str) : Str :=
  if startsWithL pat s then s.drop pat.length
  else
    match s with
    | [] => []
    | c :: rest => c :: removeFirst pat rest

/-- `value.replace(/"/g, '""')`: double every double-quote character. -/
def doubled : Str → Str
  | [] => []
  | c :: rest => if c = '"' then '"' :: '"' :: doubled rest else c :: doubled rest

/-- Decimal digits of a natural number, via `Nat.toDigits`. -/
def natDigits (n : ℕ) : Str := Nat.toDigits 10 n

/-! ### The JS number model -/

/-- A JS number: a finite value (exact rational model of the double),
`NaN`, or a signed infinity. -/
inductive JsNum where
  | fin (q : ℚ)
  | nan
  | inf (neg : Bool)
  deriving DecidableEq

def JsNum.isNaN : JsNum → Bool
  | .nan => true
  | _ => false

def digitVal (c : Char) : ℕ := c.toNat - '0'.toNat

def isHexDigit (c : Char) : Bool :=
  c.isDigit || (('a' ≤ c && c ≤ 'f') || ('A' ≤ c && c ≤ 'F'))

def hexVal (c : Char) : ℕ :=
  if c.isDigit then digitVal c
  else if 'a' ≤ c && c ≤ 'f' then c.toNat - 'a'.toNat + 10
  else c.toNat - 'A'.toNat + 10

/-- Value of a digit run in the given base. -/
def digitsVal (base : ℕ) (f : Char → ℕ) (ds : Str) : ℕ :=
  ds.foldl (fun acc c => base * acc + f c) 0

/-- Value of the fractional digit run `ds` (the part after the point). -/
def fracVal (ds : Str) : ℚ :=
  ds.foldr (fun c acc => ((digitVal c : ℚ) + acc) / 10) 0

/-- Optional exponent suffix `eK`/`EK` applied to mantissa `q`;
must consume the whole rest. -/
def parseExpOpt (q : ℚ) (rest : Str) : Option ℚ :=
  match rest with
  | [] => some q
  | e :: r =>
    if e = 'e' ∨ e = 'E' then
      let (sgn, r') : (Bool × Str) :=
        match r with
        | '+' :: r' => (false, r')
        | '-' :: r' => (true, r')
        | _ => (false, r)
      let (ds, r'') := r'.span Char.isDigit
      if ds = [] ∨ r'' ≠ [] then none
      else
        let k : ℤ := (digitsVal 10 digitVal ds : ℤ)
        some (q * (10 : ℚ) ^ (if sgn then -k else k))
    else none

/-- `StrUnsignedDecimalLiteral` minus `Infinity`:
`digits [. digits] [exp]` or `. digits [exp]`. -/
def parseDec (t : Str) : Option ℚ :=
  let (ds1, r1) := t.span Char.isDigit
  match r1 with
  | '.' :: r2 =>
    let (ds2, r3) := r2.span Char.isDigit
    if ds1 = [] ∧ ds2 = [] then none
    else parseExpOpt ((digitsVal 10 digitVal ds1 : ℚ) + fracVal ds2) r3
  | _ =>
    if ds1 = [] then none else parseExpOpt (digitsVal 10 digitVal ds1 : ℚ) r1

def strInf : Str := ['I', 'n', 'f', 'i', 'n', 'i', 't', 'y']

/-- Signed decimal part of a string numeric literal. -/
def parseSignedDec (t : Str) : Option JsNum :=
  let (neg, t') : (Bool × Str) :=
    match t with
    | '+' :: r => (false, r)
    | '-' :: r => (true, r)
    | _ => (false, t)
  if t' = strInf then some (.inf neg)
  else (parseDec t').map (fun q => .fin (if neg then -q else q))

/-- Radix-prefixed integer literal body: all of `t` must be digits of the base. -/
def parseRadix (base : ℕ) (ok : Char → Bool) (f : Char → ℕ) (t : Str) : Option JsNum :=
  if t ≠ [] ∧ t.all ok then some (.fin (digitsVal base f t : ℚ)) else none

/-- `Number(s)` (ECMAScript `StringNumericLiteral`), on the exact-rational
model of doubles.  Whitespace-trimmed; empty means `0`; `0x`/`0o`/`0b`
prefixes; otherwise an optionally signed decimal literal or `Infinity`. -/
def jsNumber (s : Str) : JsNum :=
  let t := jsTrim s
  if t = [] then .fin 0
  else
    match t with
    | '0' :: x :: r =>
      if x = 'x' ∨ x = 'X' then (parseRadix 16 isHexDigit hexVal r).getD .nan
      else if x = 'o' ∨ x = 'O' then (parseRadix 8 (fun c => '0' ≤ c && c ≤ '7') digitVal r).getD .nan
      else if x = 'b' ∨ x = 'B' then (parseRadix 2 (fun c => c = '0' || c = '1') digitVal r).getD .nan
      else (parseSignedDec t).getD .nan
    | _ => (parseSignedDec t).getD .nan

/-- Minimal `k ≤ fuel` such that `q * 10 ^ k` is an integer, if any. -/
def termExp : ℕ → ℚ → Option ℕ
  | 0, q => if q.den = 1 then some 0 else none
  | fuel + 1, q => if q.den = 1 then some 0 else (termExp fuel (q * 10)).map (· + 1)

/-- Fractional digits: the first `k` decimal digits of `0 ≤ r < 1`. -/
def fracDigits : ℕ → ℚ → Str
  | 0, _ => []
  | k + 1, r =>
    let r' := r * 10
    let d := (Rat.floor r').toNat
    Char.ofNat (d + '0'.toNat) :: fracDigits k (r' - (d : ℚ))

/-- Decimal rendering of a non-negative rational. -/
def qToStrNonneg (q : ℚ) : Str :=
  let i := (Rat.floor q).toNat
  match termExp 1200 q with
  | some 0 => natDigits i
  | some k => natDigits i ++ '.' :: fracDigits k (q - (i : ℚ))
  | none => natDigits i ++ '.' :: fracDigits 30 (q - (i : ℚ))

/-- `String(x)` for a finite JS number.  Doubles are dyadic rationals, so
the `termExp` search always terminates on values the source can hold; the
`none` branch is unreachable for such values.  Exponential rendering for
very large/small magnitudes is not modelled (irrelevant to the claims). -/
def qToStr (q : ℚ) : Str :=
  if q < 0 then '-' :: qToStrNonneg (-q) else qToStrNonneg q

/-! ### Structured values (the JSON side) -/

/-- A JSON-compatible input value. -/
inductive JValue where
  | str (s : Str)
  | num (q : ℚ)
  | bool (b : Bool)
  | null
  | arr (elems : List JValue)
  | obj (fields : List (Str × JValue))

abbrev JRecord := List (Str × JValue)

instance : Inhabited JValue := ⟨JValue.null⟩

mutual
def beqJ : JValue → JValue → Bool
  | .str a, .str b => decide (a = b)
  | .num a, .num b => decide (a = b)
  | .bool a, .bool b => decide (a = b)
  | .null, .null => true
  | .arr as, .arr bs => beqJL as bs
  | .obj fs, .obj gs => beqJF fs gs
  | _, _ => false
def beqJL : List JValue → List JValue → Bool
  | [], [] => true
  | a :: as, b :: bs => beqJ a b && beqJL as bs
  | _, _ => false
def beqJF : List (Str × JValue) → List (Str × JValue) → Bool
  | [], [] => true
  | (k, v) :: r, (k', v') :: r' => decide (k = k') && beqJ v v' && beqJF r r'
  | _, _ => false
end

mutual
theorem beqJ_iff : ∀ a b, beqJ a b = true ↔ a = b
  | .str _, .str _ => by simp [beqJ]
  | .num _, .num _ => by simp [beqJ]
  | .bool _, .bool _ => by simp [beqJ]
  | .null, .null => by simp [beqJ]
  | .arr as, .arr bs => by simp [beqJ, beqJL_iff as bs]
  | .obj fs, .obj gs => by simp [beqJ, beqJF_iff fs gs]
  | .str _, .num _ => by simp [beqJ]
  | .str _, .bool _ => by simp [beqJ]
  | .str _, .null => by simp [beqJ]
  | .str _, .arr _ => by simp [beqJ]
  | .str _, .obj _ => by simp [beqJ]
  | .num _, .str _ => by simp [beqJ]
  | .num _, .bool _ => by simp [beqJ]
  | .num _, .null => by simp [beqJ]
  | .num _, .arr _ => by simp [beqJ]
  | .num _, .obj _ => by simp [beqJ]
  | .bool _, .str _ => by simp [beqJ]
  | .bool _, .num _ => by simp [beqJ]
  | .bool _, .null => by simp [beqJ]
  | .bool _, .arr _ => by simp [beqJ]
  | .bool _, .obj _ => by simp [beqJ]
  | .null, .str _ => by simp [beqJ]
  | .null, .num _ => by simp [beqJ]
  | .null, .bool _ => by simp [beqJ]
  | .null, .arr _ => by simp [beqJ]
  | .null, .obj _ => by simp [beqJ]
  | .arr _, .str _ => by simp [beqJ]
  | .arr _, .num _ => by simp [beqJ]
  | .arr _, .bool _ => by simp [beqJ]
  | .arr _, .null => by simp [beqJ]
  | .arr _, .obj _ => by simp [beqJ]
  | .obj _, .str _ => by simp [beqJ]
  | .obj _, .num _ => by simp [beqJ]
  | .obj _, .bool _ => by simp [beqJ]
  | .obj _, .null => by simp [beqJ]
  | .obj _, .arr _ => by simp [beqJ]
theorem beqJL_iff : ∀ as bs, beqJL as bs = true ↔ as = bs
  | [], [] => by simp [beqJL]
  | a :: as, b :: bs => by simp [beqJL, beqJ_iff a b, beqJL_iff as bs]
  | [], _ :: _ => by simp [beqJL]
  | _ :: _, [] => by simp [beqJL]
theorem beqJF_iff : ∀ fs gs, beqJF fs gs = true ↔ fs = gs
  | [], [] => by simp [beqJF]
  | (k, v) :: r, (k', v') :: r' => by
    simp [beqJF, beqJ_iff v v', beqJF_iff r r', Prod.ext_iff]
  | [], _ :: _ => by simp [beqJF]
  | _ :: _, [] => by simp [beqJF]
end

instance : DecidableEq JValue := fun a b => decidable_of_iff _ (beqJ_iff a b)

def strTrue : Str := ['t', 'r', 'u', 'e']
def strFalse : Str := ['f', 'a', 'l', 's', 'e']
def strObjectObject : Str :=
  ['[', 'o', 'b', 'j', 'e', 'c', 't', ' ', 'O', 'b', 'j', 'e', 'c', 't', ']']
def strNull : Str := ['n', 'u', 'l', 'l']

mutual
/-- `String(v)` for a structured value. -/
def jsToString : JValue → Str
  | .str s => s
  | .num q => qToStr q
  | .bool b => if b then strTrue else strFalse
  | .null => strNull
  | .arr es => joinComma es
  | .obj _ => strObjectObject

/-- `elems.join(',')`: `Array.prototype.join`, where `null`/`undefined`
elements become the empty string. -/
def joinComma : List JValue → Str
  | [] => []
  | [JValue.null] => []
  | [e] => jsToString e
  | JValue.null :: e' :: rest => ',' :: joinComma (e' :: rest)
  | e :: e' :: rest => jsToString e ++ ',' :: joinComma (e' :: rest)
end

/-- `String(v ?? '')`: a field value stringified, `null` becoming empty. -/
def stringifyField : JValue → Str
  | .null => []
  | v => jsToString v

/-- `String(record[key] ?? '')`: also maps a missing key (undefined) to empty. -/
def stringifyOpt : Option JValue → Str
  | none => []
  | some .null => []
  | some v => jsToString v

/-- First binding of `k` in the record, JS property lookup. -/
def lookupJ : JRecord → Str → Option JValue
  | [], _ => none
  | (k', v) :: rest, k => if k' = k then some v else lookupJ rest k

/-- `record[k] = v`: update in place if present (keeping position),
append otherwise. -/
def setKeyJ : JRecord → Str → JValue → JRecord
  | [], k, v => [(k, v)]
  | (k', v') :: rest, k, v =>
    if k' = k then (k, v) :: rest else (k', v') :: setKeyJ rest k v

/-! ### The encoder (`JsonToToon.node.ts`) -/

/-- `Object.assign(result, extra)`: merge `extra` into `result` key by key. -/
def objAssign (result : JRecord) (extra : JRecord) : JRecord :=
  extra.foldl (fun acc p => setKeyJ acc p.1 p.2) result

mutual
/-- The contribution of one value of `flattenObject`'s loop: the
key/value pairs it merges into the accumulated result (a nested object
contributes its recursively flattened record; an array contributes its
comma-joined string; anything else contributes itself). -/
def flattenVal (sep : Char) (newKey : Str) : JValue → JRecord
  | .obj fields => (flattenContribs sep newKey fields).foldl objAssign []
  | .arr elems => [(newKey, .str (joinComma elems))]
  | v => [(newKey, v)]

/-- The per-entry contributions of `flattenObject(obj, pre, sep)`, in
entry order; folding them with `Object.assign` semantics replays the
source's loop exactly. -/
def flattenContribs (sep : Char) (pre : Str) : JRecord → List JRecord
  | [] => []
  | (k, v) :: rest =>
    flattenVal sep (if pre = [] then k else pre ++ sep :: k) v :: flattenContribs sep pre rest
end

/-- `flattenObject(obj, prefix, separator)`. -/
def flattenObject (obj : JRecord) (pre : Str) (sep : Char) : JRecord :=
  (flattenContribs sep pre obj).foldl objAssign []

/-- `escapeValue(value, delimiter)`: quote (doubling internal quotes) iff
the value contains the delimiter or a newline. -/
def escapeValue (s : Str) (d : Char) : Str :=
  if d ∈ s ∨ '\n' ∈ s then '"' :: doubled s ++ ['"'] else s

def atSchema : Str := ['@', 's', 'c', 'h', 'e', 'm', 'a']

/-- `convertObjectToToon(obj, delimiter, nestedSeparator, includeSchema)`. -/
def convertObjectToToon (obj : JRecord) (d : Char) (sep : Char)
    (includeSchema : Bool) : Str :=
  let fp := flattenObject obj [] sep
  let keys := fp.map Prod.fst
  let values := fp.map (fun p => escapeValue (stringifyField p.2) d)
  (if includeSchema then atSchema ++ d :: joinD d keys ++ ['\n'] else []) ++ joinD d values

/-- `convertArrayToToon(arr, delimiter, includeSchema)`. -/
def convertArrayToToon (arr : List JRecord) (d : Char) (includeSchema : Bool) : Str :=
  match arr with
  | [] => []
  | first :: _ =>
    let keys := first.map Prod.fst
    let header := if includeSchema then atSchema ++ d :: joinD d keys ++ ['\n'] else []
    jsTrim (arr.foldl
      (fun acc record =>
        acc ++ joinD d (keys.map (fun k => escapeValue (stringifyOpt (lookupJ record k)) d)) ++ ['\n'])
      header)

/-! ### Token-savings estimate -/

/-- JS division on the model: `0/0` is `NaN`, `x/0` for `x ≠ 0` a signed
infinity. -/
def jsDivQ (a b : ℚ) : JsNum :=
  if b = 0 then (if a = 0 then .nan else .inf (decide (a < 0))) else .fin (a / b)

def jsMul (x : JsNum) (c : ℚ) : JsNum :=
  match x with
  | .fin q => .fin (q * c)
  | .nan => .nan
  | .inf n => .inf n

def strNaN : Str := ['N', 'a', 'N']

/-- `x.toFixed(1)` for a non-negative finite value: round half-up to one
decimal digit. -/
def fixed1 (q : ℚ) : Str :=
  let n := (Rat.floor (q * 10 + 1 / 2)).toNat
  natDigits (n / 10) ++ '.' :: natDigits (n % 10)

/-- `x.toFixed(1)`. -/
def toFixed1 (x : JsNum) : Str :=
  match x with
  | .nan => strNaN
  | .inf neg => (if neg then ['-'] else []) ++ strInf
  | .fin q => if q < 0 then '-' :: fixed1 (-q) else fixed1 q

def pctSuffix : Str :=
  ['%', ' ', 't', 'o', 'k', 'e', 'n', ' ', 'r', 'e', 'd', 'u', 'c', 't', 'i', 'o', 'n']

/-- `estimateTokenSavings(jsonStr, toonStr)`. -/
def estimateTokenSavings (jsonStr toonStr : Str) : Str :=
  let jsonTokens : ℕ := (jsonStr.length + 3) / 4
  let toonTokens : ℕ := (toonStr.length + 3) / 4
  let savings := jsMul (jsDivQ ((jsonTokens : ℚ) - (toonTokens : ℚ)) (jsonTokens : ℚ)) 100
  '~' :: toFixed1 savings ++ pctSuffix

/-! ### The decoder (`ToonToJson`) -/

/-- A decoded value: what the decoder can place in a record. -/
inductive DValue where
  | str (s : Str)
  | num (x : JsNum)
  | bool (b : Bool)
  | obj (fields : List (Str × DValue))

abbrev DRecord := List (Str × DValue)

instance : Inhabited DValue := ⟨DValue.str []⟩

mutual
def beqD : DValue → DValue → Bool
  | .str a, .str b => decide (a = b)
  | .num a, .num b => decide (a = b)
  | .bool a, .bool b => decide (a = b)
  | .obj fs, .obj gs => beqDF fs gs
  | _, _ => false
def beqDF : List (Str × DValue) → List (Str × DValue) → Bool
  | [], [] => true
  | (k, v) :: r, (k', v') :: r' => decide (k = k') && beqD v v' && beqDF r r'
  | _, _ => false
end

mutual
theorem beqD_iff : ∀ a b, beqD a b = true ↔ a = b
  | .str _, .str _ => by simp [beqD]
  | .num _, .num _ => by simp [beqD]
  | .bool _, .bool _ => by simp [beqD]
  | .obj fs, .obj gs => by simp [beqD, beqDF_iff fs gs]
  | .str _, .num _ => by simp [beqD]
  | .str _, .bool _ => by simp [beqD]
  | .str _, .obj _ => by simp [beqD]
  | .num _, .str _ => by simp [beqD]
  | .num _, .bool _ => by simp [beqD]
  | .num _, .obj _ => by simp [beqD]
  | .bool _, .str _ => by simp [beqD]
  | .bool _, .num _ => by simp [beqD]
  | .bool _, .obj _ => by simp [beqD]
  | .obj _, .str _ => by simp [beqD]
  | .obj _, .num _ => by simp [beqD]
  | .obj _, .bool _ => by simp [beqD]
theorem beqDF_iff : ∀ fs gs, beqDF fs gs = true ↔ fs = gs
  | [], [] => by simp [beqDF]
  | (k, v) :: r, (k', v') :: r' => by
    simp [beqDF, beqD_iff v v', beqDF_iff r r', Prod.ext_iff]
  | [], _ :: _ => by simp [beqDF]
  | _ :: _, [] => by simp [beqDF]
end

instance : DecidableEq DValue := fun a b => decidable_of_iff _ (beqD_iff a b)

def DValue.isObjD : DValue → Bool
  | .obj _ => true
  | _ => false

def lookupD : DRecord → Str → Option DValue
  | [], _ => none
  | (k', v) :: rest, k => if k' = k then some v else lookupD rest k

def setKeyD : DRecord → Str → DValue → DRecord
  | [], k, v => [(k, v)]
  | (k', v') :: rest, k, v =>
    if k' = k then (k, v) :: rest else (k', v') :: setKeyD rest k v

/-- Tokenizer state machine of `parseDelimitedLine`: a quote toggles the
in-quotes state, except that a doubled quote inside quotes yields one
literal quote; the delimiter splits only outside quotes. -/
def pdlAux (d : Char) : Str → Bool → Str → List Str
  | [], _, cur => [cur]
  | '"' :: '"' :: rest2, true, cur => pdlAux d rest2 true (cur ++ ['"'])
  | '"' :: rest, inQ, cur => pdlAux d rest (!inQ) cur
  | c :: rest, inQ, cur =>
    if c = d ∧ inQ = false then cur :: pdlAux d rest inQ []
    else pdlAux d rest inQ (cur ++ [c])

/-- `parseDelimitedLine(line, delimiter)`. -/
def parseDelimitedLine (line : Str) (d : Char) : List Str :=
  pdlAux d line false []

/-- `setNestedValue(obj, path, value, separator)` on the split path.
The shipped module is strict-mode JS, so when an intermediate segment
holds a non-object the subsequent property access on a primitive throws
a `TypeError`, modelled as `none`; an absent intermediate key is created
as a fresh empty object. -/
def setNestedValue (record : DRecord) (path : List Str) (v : DValue) : Option DRecord :=
  match path with
  | [] => some record
  | [k] => some (setKeyD record k v)
  | k :: rest =>
    match lookupD record k with
    | none => (setNestedValue [] rest v).map (fun sub => setKeyD record k (.obj sub))
    | some (.obj sub) => (setNestedValue sub rest v).map (fun sub' => setKeyD record k (.obj sub'))
    | some _ => none

/-- The decoder's type-coercion step: numbers first, then booleans. -/
def coerceValue (pn pb : Bool) (v : Str) : DValue :=
  if pn = true ∧ (jsNumber v).isNaN = false ∧ v ≠ [] then .num (jsNumber v)
  else if pb then
    (if v = strTrue then .bool true
     else if v = strFalse then .bool false
     else .str v)
  else .str v

/-- `field${idx}` synthesized key. -/
def fieldKey (idx : ℕ) : Str := ['f', 'i', 'e', 'l', 'd'] ++ natDigits idx

/-- Map with the positional index, JS `Array.prototype.map` callback index. -/
def mapWithIdx (f : ℕ → Str) : ℕ → List Str → List Str
  | _, [] => []
  | i, _ :: rest => f i :: mapWithIdx f (i + 1) rest

/-- The key list the decoder uses: from the `@schema` header when present,
otherwise synthesized `field0, field1, …` from the first line's tokens. -/
def toonKeys (d : Char) (lines : List Str) : List Str :=
  let schemaLine := lines.headD []
  if startsWithL atSchema schemaLine then
    splitOnChar d (removeFirst (atSchema ++ [d]) schemaLine)
  else
    mapWithIdx fieldKey 0 (parseDelimitedLine (lines.headD []) d)

/-- The data lines: all lines after the header, or all lines when there is
no header. -/
def toonDataLines (lines : List Str) : List Str :=
  if startsWithL atSchema (lines.headD []) then lines.tail else lines

/-- One row: walk the key list positionally (`values[i] ?? ''`), coerce,
and assign through `setNestedValue`. -/
def buildRecordAux (sep : Char) (pn pb : Bool) :
    List Str → List Str → DRecord → Option DRecord
  | [], _, record => some record
  | k :: ks, vs, record =>
    match setNestedValue record (splitOnChar sep k) (coerceValue pn pb (vs.headD [])) with
    | some record' => buildRecordAux sep pn pb ks vs.tail record'
    | none => none

def buildRecord (keys : List Str) (values : List Str) (sep : Char)
    (pn pb : Bool) : Option DRecord :=
  buildRecordAux sep pn pb keys values []

/-- The row loop of `parseToon`: skip blank lines, tokenize and build each
record; a thrown `TypeError` aborts the whole parse. -/
def parseRows (keys : List Str) (d sep : Char) (pn pb : Bool) :
    List Str → Option (List DRecord)
  | [] => some []
  | line :: rest =>
    if jsTrim line = [] then parseRows keys d sep pn pb rest
    else
      match buildRecord keys (parseDelimitedLine line d) sep pn pb with
      | none => none
      | some record => (parseRows keys d sep pn pb rest).map (fun rs => record :: rs)

/-- The decoder's result: a single record or a list of records. -/
inductive ParseResult where
  | one (record : DRecord)
  | many (records : List DRecord)
  deriving DecidableEq

def strAuto : Str := ['a', 'u', 't', 'o']
def strObjectFmt : Str := ['o', 'b', 'j', 'e', 'c', 't']
def strArrayFmt : Str := ['a', 'r', 'r', 'a', 'y']

/-- The output-shaping tail of `parseToon`. -/
def shapeOutput (fmt : Str) (records : List DRecord) : ParseResult :=
  if fmt = strAuto then
    match records with
    | [r] => .one r
    | _ => .many records
  else if fmt = strObjectFmt then .one (records.headD [])
  else .many records

/-- `parseToon(toon, delimiter, nestedSeparator, outputFormat,
parseNumbers, parseBooleans)`.  `none` models a thrown `TypeError`. -/
def parseToon (toon : Str) (d sep : Char) (fmt : Str) (pn pb : Bool) :
    Option ParseResult :=
  let lines := splitOnChar '\n' (jsTrim toon)
  if lines.length = 0 then
    -- dead branch in the source: `split` never yields an empty array
    some (if fmt = strArrayFmt then .many [] else .one [])
  else
    let keys := toonKeys d lines
    (parseRows keys d sep pn pb (toonDataLines lines)).map (shapeOutput fmt)

/-! ### Lemmas: string primitives -/

theorem splitOnChar_ne_nil (c : Char) (s : Str) : splitOnChar c s ≠ [] := by
  induction s with
  | nil => simp [splitOnChar]
  | cons x rest ih =>
    simp only [splitOnChar]
    split
    · simp
    · cases h : splitOnChar c rest with
      | nil => simp
      | cons r rs => simp [h]

theorem splitOnChar_of_not_mem (c : Char) (s : Str) (h : c ∉ s) :
    splitOnChar c s = [s] := by
  induction s with
  | nil => rfl
  | cons x rest ih =>
    have hx : x ≠ c := fun hxc => h (by simp [hxc])
    have hr := ih (fun hm => h (by simp [hm]))
    simp [splitOnChar, hx, hr]

theorem splitOnChar_append (c : Char) (a b : Str) (h : c ∉ a) :
    splitOnChar c (a ++ c :: b) = a :: splitOnChar c b := by
  induction a with
  | nil => simp [splitOnChar]
  | cons x rest ih =>
    have hx : x ≠ c := fun hxc => h (by simp [hxc])
    have hr := ih (fun hm => h (by simp [hm]))
    simp only [List.cons_append, splitOnChar, hx, if_false, List.append_eq, hr]

theorem splitOnChar_joinD (c : Char) (xs : List Str) (hne : xs ≠ [])
    (h : ∀ x ∈ xs, c ∉ x) : splitOnChar c (joinD c xs) = xs := by
  induction xs with
  | nil => exact absurd rfl hne
  | cons x rest ih =>
    cases rest with
    | nil => exact splitOnChar_of_not_mem c x (h x (by simp))
    | cons y t =>
      rw [joinD, splitOnChar_append c x _ (h x (by simp))]
      rw [ih (by simp) (fun z hz => h z (by simp [hz]))]

theorem joinD_snoc (d : Char) (xs : List Str) (x : Str) :
    joinD d (xs ++ [x]) = if xs = [] then x else joinD d xs ++ d :: x := by
  induction xs with
  | nil => simp [joinD]
  | cons y rest ih =>
    cases rest with
    | nil => simp [joinD]
    | cons z t =>
      have ih2 : joinD d (z :: (t ++ [x])) = joinD d (z :: t) ++ d :: x := by
        simpa using ih
      simp only [List.cons_append, joinD, List.append_eq]
      rw [if_neg (by simp), ih2]
      simp

theorem mem_joinD (d : Char) (xs : List Str) (c : Char) (h : c ∈ joinD d xs) :
    c = d ∨ ∃ x ∈ xs, c ∈ x := by
  induction xs with
  | nil => simp [joinD] at h
  | cons x rest ih =>
    cases rest with
    | nil =>
      simp only [joinD] at h
      exact Or.inr ⟨x, by simp, h⟩
    | cons y t =>
      simp only [joinD, List.mem_append, List.mem_cons] at h
      rcases h with h | h | h
      · exact Or.inr ⟨x, by simp, h⟩
      · exact Or.inl h
      · rcases ih h with h' | ⟨z, hz, hc⟩
        · exact Or.inl h'
        · exact Or.inr ⟨z, by simp [List.mem_cons] at hz ⊢; tauto, hc⟩

theorem jsTrimLeft_cons (c : Char) (s : Str) (h : isWS c = false) :
    jsTrimLeft (c :: s) = c :: s := by
  simp [jsTrimLeft, List.dropWhile_cons, h]

theorem jsTrimRight_eq_self (s : Str) (c : Char) (hl : s.getLast? = some c)
    (h : isWS c = false) : jsTrimRight s = s := by
  unfold jsTrimRight
  have : s.reverse.head? = some c := by
    rw [List.head?_reverse]; exact hl
  cases hr : s.reverse with
  | nil => simp [hr] at this
  | cons x t =>
    rw [hr] at this
    simp only [List.head?_cons, Option.some.injEq] at this
    subst this
    rw [List.dropWhile_cons, h]
    simp only [Bool.false_eq_true, if_false]
    rw [← hr, List.reverse_reverse]

theorem jsTrim_eq_self (s : Str) (c c' : Char) (hh : s.head? = some c)
    (hc : isWS c = false) (hl : s.getLast? = some c') (hc' : isWS c' = false) :
    jsTrim s = s := by
  cases s with
  | nil => simp at hh
  | cons x t =>
    simp only [List.head?_cons, Option.some.injEq] at hh
    subst hh
    unfold jsTrim
    rw [jsTrimLeft_cons _ _ hc]
    exact jsTrimRight_eq_self _ _ hl hc'

theorem jsTrimLeft_ne_nil (s : Str) (c : Char) (hc : c ∈ s) (h : isWS c = false) :
    jsTrimLeft s ≠ [] := by
  induction s with
  | nil => simp at hc
  | cons x t ih =>
    unfold jsTrimLeft
    rw [List.dropWhile_cons]
    rcases List.mem_cons.mp hc with rfl | hm
    · simp [h]
    · split
      · exact ih hm
      · simp

theorem mem_dropWhile_of_not (p : Char → Bool) (s : Str) (c : Char)
    (hc : c ∈ s) (h : p c = false) : c ∈ s.dropWhile p := by
  induction s with
  | nil => simp at hc
  | cons x t ih =>
    rw [List.dropWhile_cons]
    rcases List.mem_cons.mp hc with rfl | hm
    · simp [h]
    · split
      · exact ih hm
      · simp [hm]

theorem jsTrim_ne_nil (s : Str) (c : Char) (hc : c ∈ s) (h : isWS c = false) :
    jsTrim s ≠ [] := by
  intro hcon
  have hc1 : c ∈ jsTrimLeft s := mem_dropWhile_of_not isWS s c hc h
  unfold jsTrim jsTrimRight at hcon
  rw [List.reverse_eq_nil_iff] at hcon
  have hall := List.dropWhile_eq_nil_iff.mp hcon
  have : isWS c = true := hall c (by simpa using hc1)
  rw [h] at this
  exact Bool.false_ne_true this

theorem startsWithL_append_self (p t : Str) : startsWithL p (p ++ t) = true := by
  induction p with
  | nil => rfl
  | cons a as ih => simpa [startsWithL] using ih

theorem removeFirst_append_self (p t : Str) : removeFirst p (p ++ t) = t := by
  unfold removeFirst
  rw [if_pos (startsWithL_append_self p t)]
  simp

/-! ### Lemmas: the tokenizer -/

theorem pdlAux_quote_pair (d : Char) (rest cur : Str) :
    pdlAux d ('"' :: '"' :: rest) true cur = pdlAux d rest true (cur ++ ['"']) := by
  simp [pdlAux]

theorem pdlAux_quote_open (d : Char) (rest cur : Str) :
    pdlAux d ('"' :: rest) false cur = pdlAux d rest true cur := by
  cases rest with
  | nil => simp [pdlAux]
  | cons c r =>
    by_cases hc : c = '"'
    · subst hc; simp [pdlAux]
    · simp [pdlAux, hc]

theorem pdlAux_quote_close (d : Char) (rest cur : Str) (h : rest.head? ≠ some '"') :
    pdlAux d ('"' :: rest) true cur = pdlAux d rest false cur := by
  cases rest with
  | nil => simp [pdlAux]
  | cons c r =>
    have hc : c ≠ '"' := by simpa using h
    simp [pdlAux, hc]

theorem pdlAux_plain_false (d c : Char) (rest cur : Str) (hc : c ≠ '"') (hd : c ≠ d) :
    pdlAux d (c :: rest) false cur = pdlAux d rest false (cur ++ [c]) := by
  cases rest with
  | nil => simp [pdlAux, hc, hd]
  | cons c' r => simp [pdlAux, hc, hd]

theorem pdlAux_plain_true (d c : Char) (rest cur : Str) (hc : c ≠ '"') :
    pdlAux d (c :: rest) true cur = pdlAux d rest true (cur ++ [c]) := by
  cases rest with
  | nil => simp [pdlAux, hc]
  | cons c' r => simp [pdlAux, hc]

theorem pdlAux_delim (d : Char) (rest cur : Str) (hd : d ≠ '"') :
    pdlAux d (d :: rest) false cur = cur :: pdlAux d rest false [] := by
  cases rest with
  | nil => simp [pdlAux, hd]
  | cons c' r => simp [pdlAux, hd]

theorem pdl_doubled (d : Char) (s : Str) : ∀ (rest cur : Str),
    pdlAux d (doubled s ++ '"' :: rest) true cur = pdlAux d ('"' :: rest) true (cur ++ s) := by
  induction s with
  | nil => intro rest cur; simp [doubled]
  | cons c s' ih =>
    intro rest cur
    by_cases hc : c = '"'
    · subst hc
      have hdl : doubled ('"' :: s') = '"' :: '"' :: doubled s' := by simp [doubled]
      rw [hdl, List.cons_append, List.cons_append, pdlAux_quote_pair, ih]
      simp
    · have hdl : doubled (c :: s') = c :: doubled s' := by simp [doubled, hc]
      rw [hdl, List.cons_append, pdlAux_plain_true d c _ _ hc, ih]
      simp

theorem pdl_plain_run (d : Char) (s : Str) : ∀ (rest cur : Str),
    (∀ c ∈ s, c ≠ '"' ∧ c ≠ d) →
    pdlAux d (s ++ rest) false cur = pdlAux d rest false (cur ++ s) := by
  induction s with
  | nil => intro rest cur _; simp
  | cons c s' ih =>
    intro rest cur h
    have hc := h c (by simp)
    rw [List.cons_append, pdlAux_plain_false d c _ _ hc.1 hc.2,
      ih rest (cur ++ [c]) (fun x hx => h x (by simp [hx]))]
    simp

/-- The conditions under which a field value survives the tokenizer: no
newline, and (unless it gets quoted because it contains the delimiter) no
stray double-quote character. -/
def goodField (d : Char) (s : Str) : Prop := '\n' ∉ s ∧ (d ∈ s ∨ '"' ∉ s)

instance (d : Char) (s : Str) : Decidable (goodField d s) := by
  unfold goodField; infer_instance

theorem pdl_escape_cont (d : Char) (s rest cur : Str) (hgood : goodField d s)
    (hrest : rest.head? ≠ some '"') :
    pdlAux d (escapeValue s d ++ rest) false cur = pdlAux d rest false (cur ++ s) := by
  unfold escapeValue
  by_cases hq : d ∈ s ∨ '\n' ∈ s
  · rw [if_pos hq]
    have : ('"' :: doubled s ++ ['"']) ++ rest = '"' :: (doubled s ++ '"' :: rest) := by simp
    rw [this, pdlAux_quote_open, pdl_doubled, pdlAux_quote_close d rest _ hrest]
  · rw [if_neg hq]
    push_neg at hq
    have hnq : '"' ∉ s := by
      rcases hgood.2 with h | h
      · exact absurd h hq.1
      · exact h
    exact pdl_plain_run d s rest cur
      (fun c hc => ⟨fun hcon => hnq (hcon ▸ hc), fun hcon => hq.1 (hcon ▸ hc)⟩)

theorem pdl_join_escape (d : Char) (hd : d ≠ '"') : ∀ (vs : List Str), vs ≠ [] →
    (∀ s ∈ vs, goodField d s) →
    parseDelimitedLine (joinD d (vs.map (fun s => escapeValue s d))) d = vs := by
  intro vs
  induction vs with
  | nil => intro h; exact absurd rfl h
  | cons s rest ih =>
    intro _ hgood
    cases rest with
    | nil =>
      unfold parseDelimitedLine
      simp only [List.map_cons, List.map_nil, joinD]
      rw [show escapeValue s d = escapeValue s d ++ [] by simp]
      rw [pdl_escape_cont d s [] [] (hgood s (by simp)) (by simp)]
      simp [pdlAux]
    | cons s' t =>
      unfold parseDelimitedLine
      simp only [List.map_cons, joinD]
      rw [pdl_escape_cont d s _ [] (hgood s (by simp)) (by simp [hd])]
      rw [pdlAux_delim d _ _ hd]
      have := ih (by simp) (fun x hx => hgood x (by simp [List.mem_cons] at hx ⊢; tauto))
      unfold parseDelimitedLine at this
      simp only [List.map_cons, joinD] at this
      rw [this]
      simp

/-! ### Lemmas: escaping and field shape -/

theorem mem_doubled (s : Str) (c : Char) (h : c ∈ doubled s) : c ∈ s ∨ c = '"' := by
  induction s with
  | nil => simp [doubled] at h
  | cons x t ih =>
    by_cases hx : x = '"'
    · subst hx
      rw [show doubled ('"' :: t) = '"' :: '"' :: doubled t from by simp [doubled]] at h
      rcases List.mem_cons.mp h with rfl | h
      · exact Or.inr rfl
      rcases List.mem_cons.mp h with rfl | h
      · exact Or.inr rfl
      rcases ih h with h' | h'
      · exact Or.inl (List.mem_cons_of_mem _ h')
      · exact Or.inr h'
    · rw [show doubled (x :: t) = x :: doubled t from by simp [doubled, hx]] at h
      rcases List.mem_cons.mp h with rfl | h
      · exact Or.inl (List.mem_cons_self _ _)
      rcases ih h with h' | h'
      · exact Or.inl (List.mem_cons_of_mem _ h')
      · exact Or.inr h'

theorem escapeValue_quoted (s : Str) (d : Char) (h : d ∈ s ∨ '\n' ∈ s) :
    escapeValue s d = '"' :: doubled s ++ ['"'] := by
  unfold escapeValue; rw [if_pos h]

theorem escapeValue_plain (s : Str) (d : Char) (h : ¬(d ∈ s ∨ '\n' ∈ s)) :
    escapeValue s d = s := by
  unfold escapeValue; rw [if_neg h]

theorem mem_escapeValue (s : Str) (d c : Char) (h : c ∈ escapeValue s d) :
    c ∈ s ∨ c = '"' := by
  by_cases hq : d ∈ s ∨ '\n' ∈ s
  · rw [escapeValue_quoted s d hq] at h
    rcases List.mem_cons.mp h with rfl | h
    · exact Or.inr rfl
    rcases List.mem_append.mp h with h | h
    · exact mem_doubled s c h
    · exact Or.inr (by simpa using h)
  · rw [escapeValue_plain s d hq] at h
    exact Or.inl h

/-! ### Lemmas: building records -/

theorem setKeyD_fresh : ∀ (rec : DRecord) (k : Str) (v : DValue),
    k ∉ rec.map Prod.fst → setKeyD rec k v = rec ++ [(k, v)]
  | [], _, _, _ => rfl
  | (k', v') :: rest, k, v, h => by
    have hk : k' ≠ k := fun hc => h (by simp only [List.map_cons, List.mem_cons]; exact Or.inl hc.symm)
    have h2 : k ∉ rest.map Prod.fst := fun hc => h (by simp only [List.map_cons, List.mem_cons]; exact Or.inr hc)
    simp only [setKeyD, if_neg hk, List.cons_append, List.cons.injEq, true_and]
    exact setKeyD_fresh rest k v h2

theorem setKeyJ_fresh : ∀ (rec : JRecord) (k : Str) (v : JValue),
    k ∉ rec.map Prod.fst → setKeyJ rec k v = rec ++ [(k, v)]
  | [], _, _, _ => rfl
  | (k', v') :: rest, k, v, h => by
    have hk : k' ≠ k := fun hc => h (by simp only [List.map_cons, List.mem_cons]; exact Or.inl hc.symm)
    have h2 : k ∉ rest.map Prod.fst := fun hc => h (by simp only [List.map_cons, List.mem_cons]; exact Or.inr hc)
    simp only [setKeyJ, if_neg hk, List.cons_append, List.cons.injEq, true_and]
    exact setKeyJ_fresh rest k v h2

theorem buildRecordAux_fresh (sep : Char) (pn pb : Bool) :
    ∀ (ks vs : List Str) (rec : DRecord), ks.Nodup →
    (∀ k ∈ ks, sep ∉ k) → (∀ k ∈ ks, k ∉ rec.map Prod.fst) →
    vs.length = ks.length →
    buildRecordAux sep pn pb ks vs rec
      = some (rec ++ List.zipWith (fun k v => (k, coerceValue pn pb v)) ks vs) := by
  intro ks
  induction ks with
  | nil => intro vs rec _ _ _ _; simp [buildRecordAux]
  | cons k ks' ih =>
    intro vs rec hnd hsep hfresh hlen
    cases vs with
    | nil => simp at hlen
    | cons v vs' =>
      have hspl : splitOnChar sep k = [k] :=
        splitOnChar_of_not_mem sep k (hsep k (by simp))
      have hset : setKeyD rec k (coerceValue pn pb v) = rec ++ [(k, coerceValue pn pb v)] :=
        setKeyD_fresh rec k _ (hfresh k (by simp))
      have hnd' := List.nodup_cons.mp hnd
      have hfresh' : ∀ x ∈ ks', x ∉ (rec ++ [(k, coerceValue pn pb v)]).map Prod.fst := by
        intro x hx hc
        rw [List.map_append] at hc
        rcases List.mem_append.mp hc with hc | hc
        · exact hfresh x (List.mem_cons_of_mem _ hx) hc
        · have : x = k := by simpa using hc
          exact hnd'.1 (this ▸ hx)
      simp only [buildRecordAux, List.headD_cons, hspl, setNestedValue, hset,
        List.tail_cons]
      rw [ih vs' _ hnd'.2 (fun x hx => hsep x (List.mem_cons_of_mem _ hx)) hfresh'
        (by simpa using hlen)]
      simp

theorem buildRecord_fresh (keys values : List Str) (sep : Char) (pn pb : Bool)
    (hnd : keys.Nodup) (hsep : ∀ k ∈ keys, sep ∉ k)
    (hlen : values.length = keys.length) :
    buildRecord keys values sep pn pb
      = some (List.zipWith (fun k v => (k, coerceValue pn pb v)) keys values) := by
  unfold buildRecord
  rw [buildRecordAux_fresh sep pn pb keys values [] hnd hsep (by simp) hlen]
  simp

/-! ### Lemmas: flattening a flat object -/

/-- Whether a structured value is a (non-array, non-null) object. -/
def JValue.isObjV : JValue → Bool
  | .obj _ => true
  | _ => false

/-- The value a flat field contributes: arrays become their comma-joined
string, everything else stays. -/
def flatVal : JValue → JValue
  | .arr es => .str (joinComma es)
  | v => v

/-- The string the encoder writes for a flat field. -/
def fieldStr (v : JValue) : Str := stringifyField (flatVal v)

theorem flattenContribs_flat (sep : Char) :
    ∀ (obj : JRecord), (∀ p ∈ obj, p.2.isObjV = false) →
    flattenContribs sep [] obj = obj.map (fun p => [(p.1, flatVal p.2)]) := by
  intro obj
  induction obj with
  | nil => intro _; rfl
  | cons p rest ih =>
    intro h
    obtain ⟨k, v⟩ := p
    have hv : JValue.isObjV v = false := h (k, v) (List.mem_cons_self _ _)
    have hrest := ih (fun q hq => h q (List.mem_cons_of_mem _ hq))
    cases v with
    | obj fields => simp [JValue.isObjV] at hv
    | arr es => simp [flattenContribs, flattenVal, flatVal, hrest]
    | str s => simp [flattenContribs, flattenVal, flatVal, hrest]
    | num q => simp [flattenContribs, flattenVal, flatVal, hrest]
    | bool b => simp [flattenContribs, flattenVal, flatVal, hrest]
    | null => simp [flattenContribs, flattenVal, flatVal, hrest]

theorem foldl_objAssign_singletons :
    ∀ (l : JRecord) (rec : JRecord), (l.map Prod.fst).Nodup →
    (∀ k ∈ l.map Prod.fst, k ∉ rec.map Prod.fst) →
    (l.map (fun p => [p])).foldl objAssign rec = rec ++ l := by
  intro l
  induction l with
  | nil => intro rec _ _; simp
  | cons p rest ih =>
    intro rec hnd hfresh
    have hset : setKeyJ rec p.1 p.2 = rec ++ [p] := by
      rw [setKeyJ_fresh rec p.1 p.2 (hfresh p.1 (by simp))]
    have hnd2 : (p.1 :: rest.map Prod.fst).Nodup := by
      rw [← List.map_cons]; exact hnd
    have hnd' := List.nodup_cons.mp hnd2
    have hfresh' : ∀ x ∈ rest.map Prod.fst, x ∉ (rec ++ [p]).map Prod.fst := by
      intro x hx hc
      rw [List.map_append] at hc
      rcases List.mem_append.mp hc with hc | hc
      · exact hfresh x (by simp only [List.map_cons, List.mem_cons]; exact Or.inr hx) hc
      · have : x = p.1 := by simpa using hc
        exact hnd'.1 (this ▸ hx)
    simp only [List.map_cons, List.foldl_cons]
    have hob : objAssign rec [p] = rec ++ [p] := by
      simp [objAssign, hset]
    rw [hob, ih (rec ++ [p]) hnd'.2 hfresh']
    simp

theorem flattenObject_flat (obj : JRecord) (sep : Char)
    (hflat : ∀ p ∈ obj, p.2.isObjV = false)
    (hnd : (obj.map Prod.fst).Nodup) :
    flattenObject obj [] sep = obj.map (fun p => (p.1, flatVal p.2)) := by
  unfold flattenObject
  rw [flattenContribs_flat sep obj hflat]
  have hrw : obj.map (fun p => [(p.1, flatVal p.2)])
      = (obj.map (fun p => (p.1, flatVal p.2))).map (fun p => [p]) := by
    simp
  rw [hrw, foldl_objAssign_singletons _ [] (by simpa using hnd) (by simp)]
  simp

/-! ### Lemmas: last characters and trimming of the encoded document -/

theorem eq_nil_or_snoc {α : Type} (l : List α) : l = [] ∨ ∃ t x, l = t ++ [x] := by
  rcases List.eq_nil_or_concat l with h | ⟨t, x, h⟩
  · exact Or.inl h
  · exact Or.inr ⟨t, x, by simpa [List.concat_eq_append] using h⟩

theorem getLast?_append_right (a b : Str) (hb : b ≠ []) :
    (a ++ b).getLast? = b.getLast? := by
  rcases eq_nil_or_snoc b with rfl | ⟨b', c, rfl⟩
  · exact absurd rfl hb
  · rw [← List.append_assoc, List.getLast?_concat, List.getLast?_concat]

theorem mem_of_getLast? (l : Str) (c : Char) (h : l.getLast? = some c) : c ∈ l := by
  rcases eq_nil_or_snoc l with rfl | ⟨l', x, rfl⟩
  · simp at h
  · rw [List.getLast?_concat] at h
    simp only [Option.some.injEq] at h
    simp [h]

theorem jsTrimRight_snoc_ws (s : Str) (c : Char) (h : isWS c = true) :
    jsTrimRight (s ++ [c]) = jsTrimRight s := by
  unfold jsTrimRight
  rw [List.reverse_append]
  simp [List.dropWhile_cons, h]

theorem joinD_mem_of_two (d : Char) (xs : List Str) (h : 2 ≤ xs.length) :
    d ∈ joinD d xs := by
  rcases eq_nil_or_snoc xs with rfl | ⟨init, x, rfl⟩
  · simp at h
  · rw [joinD_snoc]
    have hinit : init ≠ [] := by
      intro hcon
      subst hcon
      simp at h
    rw [if_neg hinit]
    simp

theorem escapeValue_nil (d : Char) : escapeValue [] d = [] := by
  simp [escapeValue]

/-- The extra condition on the final value of the single data row: the
document-level `trim()` must not clip it (it is quoted, or it does not end
in whitespace, or it is empty but not the only field). -/
def lastFieldOk (d : Char) (svals : List Str) : Prop :=
  svals = [] ∨
    d ∈ svals.getLastD [] ∨
    (svals.getLastD [] ≠ [] ∧ isWS ((svals.getLastD []).getLastD ' ') = false) ∨
    (svals.getLastD [] = [] ∧ 2 ≤ svals.length)

instance (d : Char) (svals : List Str) : Decidable (lastFieldOk d svals) := by
  unfold lastFieldOk; infer_instance

theorem joinD_escape_getLast (d : Char) (hdw : isWS d = false) (svals : List Str)
    (hne : svals ≠ []) (hlast : lastFieldOk d svals) :
    ∃ c, (joinD d (svals.map (fun s => escapeValue s d))).getLast? = some c ∧
      isWS c = false := by
  rcases eq_nil_or_snoc svals with rfl | ⟨init, sl, rfl⟩
  · exact absurd rfl hne
  have hgl : (init ++ [sl]).getLastD ([] : Str) = sl := List.getLastD_concat _ _ _
  rw [List.map_append, List.map_singleton, joinD_snoc]
  by_cases hq : d ∈ sl ∨ '\n' ∈ sl
  · -- the final field is quoted, so the line ends with a quote
    rw [escapeValue_quoted sl d hq]
    refine ⟨'"', ?_, by decide⟩
    split
    · rw [show ('"' :: doubled sl ++ ['"'] : Str) = ('"' :: doubled sl) ++ ['"'] from by simp,
        List.getLast?_concat]
    · rw [show (d :: ('"' :: doubled sl ++ ['"']) : Str)
          = (d :: '"' :: doubled sl) ++ ['"'] from by simp,
        getLast?_append_right _ _ (by simp), List.getLast?_concat]
  · rw [escapeValue_plain sl d hq]
    unfold lastFieldOk at hlast
    rw [hgl] at hlast
    rcases hlast with hcon | hmem | ⟨hslne, hws⟩ | ⟨hslnil, hlen⟩
    · simp at hcon
    · exact absurd (Or.inl hmem) hq
    · -- the final field ends in a non-whitespace character
      rcases eq_nil_or_snoc sl with rfl | ⟨sl', c, rfl⟩
      · exact absurd rfl hslne
      rw [List.getLastD_concat] at hws
      refine ⟨c, ?_, hws⟩
      split
      · rw [List.getLast?_concat]
      · rw [getLast?_append_right _ _ (by simp),
          show (d :: (sl' ++ [c]) : Str) = (d :: sl') ++ [c] from by simp,
          List.getLast?_concat]
    · -- the final field is empty but not alone: the line ends with the delimiter
      subst hslnil
      have hinit : init ≠ [] := by
        intro hcon; subst hcon; simp at hlen
      have hinitm : init.map (fun s => escapeValue s d) ≠ [] := by
        simpa using hinit
      rw [if_neg hinitm]
      exact ⟨d, by rw [show (d :: [] : Str) = [d] from rfl, List.getLast?_concat], hdw⟩

theorem zipWith_map_same {α β γ δ : Type} (f : β → γ → δ) (g : α → β) (h : α → γ) :
    ∀ (l : List α), List.zipWith f (l.map g) (l.map h) = l.map fun x => f (g x) (h x) := by
  intro l
  induction l with
  | nil => rfl
  | cons x t ih => simp [ih]

/-! ### The object-mode round trip -/

theorem map_ptwise {α β : Type} (f g : α → β) (l : List α) (h : ∀ a, f a = g a) :
    l.map f = l.map g := by
  induction l with
  | nil => rfl
  | cons x t ih => simp only [List.map_cons, h x, ih]

theorem convertObjectToToon_shape (obj : JRecord) (d sep : Char)
    (hflat : ∀ p ∈ obj, JValue.isObjV p.2 = false)
    (hnd : (obj.map Prod.fst).Nodup) :
    convertObjectToToon obj d sep true
      = (atSchema ++ d :: joinD d (obj.map Prod.fst))
        ++ '\n' :: joinD d ((obj.map (fun p => fieldStr p.2)).map (fun s => escapeValue s d)) := by
  unfold convertObjectToToon
  rw [flattenObject_flat obj sep hflat hnd]
  simp only [List.map_map, if_true, List.append_assoc, List.cons_append,
    List.singleton_append, List.nil_append]
  rw [show List.map (Prod.fst ∘ fun p : Str × JValue => (p.1, flatVal p.2)) obj
      = List.map Prod.fst obj from map_ptwise _ _ obj (fun a => rfl)]
  rw [show List.map ((fun p : Str × JValue => escapeValue (stringifyField p.2) d)
        ∘ fun p : Str × JValue => (p.1, flatVal p.2)) obj
      = List.map ((fun s => escapeValue s d) ∘ fun p : Str × JValue => fieldStr p.2) obj
      from map_ptwise _ _ obj (fun a => rfl)]

theorem roundTripObjAux (d sep : Char) (pn pb : Bool) (obj : JRecord)
    (hdq : d ≠ '"') (hdw : isWS d = false)
    (hflat : ∀ p ∈ obj, JValue.isObjV p.2 = false)
    (hnd : (obj.map Prod.fst).Nodup)
    (hkeys : ∀ k ∈ obj.map Prod.fst, d ∉ k ∧ '\n' ∉ k ∧ sep ∉ k)
    (hvals : ∀ p ∈ obj, goodField d (fieldStr p.2))
    (hlast : lastFieldOk d (obj.map (fun p => fieldStr p.2))) :
    parseToon (convertObjectToToon obj d sep true) d sep strObjectFmt pn pb
      = some (.one (obj.map (fun p => (p.1, coerceValue pn pb (fieldStr p.2))))) := by
  have hdn : d ≠ '\n' := by
    intro h
    rw [h] at hdw
    exact absurd hdw (by decide)
  rw [convertObjectToToon_shape obj d sep hflat hnd]
  by_cases hobj : obj = []
  · -- empty object: the document is `@schema` + delimiter + newline,
    -- which trims back to the bare header and yields no data rows
    subst hobj
    simp only [List.map_nil, joinD]
    have hnl : '\n' ∉ atSchema ++ [d] := by
      intro hm
      rcases List.mem_append.mp hm with hm | hm
      · exact absurd hm (by decide)
      · exact hdn ((by simpa using hm : '\n' = d)).symm
    have htrim : jsTrim ((atSchema ++ d :: []) ++ ['\n']) = atSchema ++ [d] := by
      unfold jsTrim
      have h1 : jsTrimLeft ((atSchema ++ d :: []) ++ ['\n']) = (atSchema ++ d :: []) ++ ['\n'] := by
        rw [show ((atSchema ++ d :: []) ++ ['\n'] : Str)
            = '@' :: (['s', 'c', 'h', 'e', 'm', 'a'] ++ d :: [] ++ ['\n']) from by simp [atSchema],
          jsTrimLeft_cons _ _ (by decide)]
      rw [h1, show ((atSchema ++ d :: []) ++ ['\n'] : Str) = (atSchema ++ [d]) ++ ['\n'] from by simp,
        jsTrimRight_snoc_ws _ _ (by decide)]
      exact jsTrimRight_eq_self _ d (by rw [List.getLast?_concat]) hdw
    unfold parseToon
    rw [htrim, splitOnChar_of_not_mem '\n' _ hnl]
    simp only [List.length_cons, List.length_nil]
    rw [if_neg (by simp)]
    have hsw : startsWithL atSchema (atSchema ++ [d]) = true := startsWithL_append_self _ _
    have htd : toonDataLines [atSchema ++ [d]] = [] := by
      simp [toonDataLines, hsw]
    rw [htd]
    simp [parseRows, shapeOutput, strObjectFmt, strAuto]
  · -- non-empty object
    have hmapne : obj.map (fun p => fieldStr p.2) ≠ [] := by simpa using hobj
    obtain ⟨cl, hcl, hclw⟩ := joinD_escape_getLast d hdw _ hmapne hlast
    have hLne : joinD d ((obj.map (fun p => fieldStr p.2)).map (fun s => escapeValue s d)) ≠ [] :=
      List.ne_nil_of_mem (mem_of_getLast? _ _ hcl)
    have hgood : ∀ s ∈ obj.map (fun p => fieldStr p.2), goodField d s := by
      intro s hs
      obtain ⟨p, hp, rfl⟩ := List.mem_map.mp hs
      exact hvals p hp
    have hnlL : '\n' ∉ joinD d ((obj.map (fun p => fieldStr p.2)).map (fun s => escapeValue s d)) := by
      intro hm
      rcases mem_joinD d _ _ hm with hm | ⟨x, hx, hmx⟩
      · exact hdn hm.symm
      · obtain ⟨s, hs, rfl⟩ := List.mem_map.mp hx
        rcases mem_escapeValue s d '\n' hmx with hm' | hm'
        · exact (hgood s hs).1 hm'
        · exact absurd hm' (by decide)
    have hnlS : '\n' ∉ atSchema ++ d :: joinD d (obj.map Prod.fst) := by
      intro hm
      rcases List.mem_append.mp hm with hm | hm
      · exact absurd hm (by decide)
      rcases List.mem_cons.mp hm with hm | hm
      · exact hdn hm.symm
      rcases mem_joinD d _ _ hm with hm | ⟨k, hk, hmk⟩
      · exact hdn hm.symm
      · exact (hkeys k hk).2.1 hmk
    have htrim : jsTrim ((atSchema ++ d :: joinD d (obj.map Prod.fst))
        ++ '\n' :: joinD d ((obj.map (fun p => fieldStr p.2)).map (fun s => escapeValue s d)))
        = (atSchema ++ d :: joinD d (obj.map Prod.fst))
          ++ '\n' :: joinD d ((obj.map (fun p => fieldStr p.2)).map (fun s => escapeValue s d)) := by
      apply jsTrim_eq_self _ '@' cl
      · rw [show ((atSchema ++ d :: joinD d (obj.map Prod.fst))
            ++ '\n' :: joinD d ((obj.map (fun p => fieldStr p.2)).map (fun s => escapeValue s d)) : Str)
            = '@' :: (['s', 'c', 'h', 'e', 'm', 'a'] ++ d :: joinD d (obj.map Prod.fst)
              ++ '\n' :: joinD d ((obj.map (fun p => fieldStr p.2)).map (fun s => escapeValue s d)))
            from by simp [atSchema]]
        rfl
      · decide
      · rw [getLast?_append_right _ _ (by simp),
          show ('\n' :: joinD d ((obj.map (fun p => fieldStr p.2)).map (fun s => escapeValue s d)) : Str)
            = ['\n'] ++ joinD d ((obj.map (fun p => fieldStr p.2)).map (fun s => escapeValue s d))
            from by simp,
          getLast?_append_right _ _ hLne]
        exact hcl
      · exact hclw
    unfold parseToon
    rw [htrim, splitOnChar_append '\n' _ _ hnlS, splitOnChar_of_not_mem '\n' _ hnlL]
    simp only [List.length_cons, List.length_nil]
    rw [if_neg (by simp)]
    have hsw : startsWithL atSchema (atSchema ++ d :: joinD d (obj.map Prod.fst)) = true :=
      startsWithL_append_self _ _
    have hkeysne : obj.map Prod.fst ≠ [] := by simpa using hobj
    have htk : toonKeys d [atSchema ++ d :: joinD d (obj.map Prod.fst),
        joinD d ((obj.map (fun p => fieldStr p.2)).map (fun s => escapeValue s d))]
        = obj.map Prod.fst := by
      unfold toonKeys
      simp only [List.headD_cons, hsw, if_true]
      rw [show (atSchema ++ d :: joinD d (obj.map Prod.fst) : Str)
          = (atSchema ++ [d]) ++ joinD d (obj.map Prod.fst) from by simp,
        removeFirst_append_self]
      exact splitOnChar_joinD d _ hkeysne (fun k hk => (hkeys k hk).1)
    have htd : toonDataLines [atSchema ++ d :: joinD d (obj.map Prod.fst),
        joinD d ((obj.map (fun p => fieldStr p.2)).map (fun s => escapeValue s d))]
        = [joinD d ((obj.map (fun p => fieldStr p.2)).map (fun s => escapeValue s d))] := by
      unfold toonDataLines
      simp [hsw]
    rw [htk, htd]
    have hpdl : parseDelimitedLine
        (joinD d ((obj.map (fun p => fieldStr p.2)).map (fun s => escapeValue s d))) d
        = obj.map (fun p => fieldStr p.2) :=
      pdl_join_escape d hdq _ hmapne hgood
    have hbr : buildRecord (obj.map Prod.fst) (obj.map (fun p => fieldStr p.2)) sep pn pb
        = some (obj.map (fun p => (p.1, coerceValue pn pb (fieldStr p.2)))) := by
      rw [buildRecord_fresh _ _ sep pn pb hnd (fun k hk => (hkeys k hk).2.2) (by simp)]
      rw [zipWith_map_same]
    have hrows : parseRows (obj.map Prod.fst) d sep pn pb
        [joinD d ((obj.map (fun p => fieldStr p.2)).map (fun s => escapeValue s d))]
        = some [obj.map (fun p => (p.1, coerceValue pn pb (fieldStr p.2)))] := by
      unfold parseRows
      rw [if_neg (jsTrim_ne_nil _ cl (mem_of_getLast? _ _ hcl) hclw)]
      rw [hpdl, hbr]
      rfl
    rw [hrows]
    simp [shapeOutput, strObjectFmt, strAuto]

/-! ### Lemmas: output shaping, empty input, schema-less keys -/

theorem map_ptwise_mem {α β : Type} (f g : α → β) (l : List α)
    (h : ∀ a ∈ l, f a = g a) : l.map f = l.map g := by
  induction l with
  | nil => rfl
  | cons x t ih =>
    simp only [List.map_cons, h x (by simp)]
    rw [ih (fun a ha => h a (List.mem_cons_of_mem _ ha))]

theorem mapWithIdx_eq_map_range (f : ℕ → Str) :
    ∀ (l : List Str) (n : ℕ),
    mapWithIdx f n l = (List.range l.length).map (fun i => f (n + i)) := by
  intro l
  induction l with
  | nil => intro n; rfl
  | cons x t ih =>
    intro n
    rw [show mapWithIdx f n (x :: t) = f n :: mapWithIdx f (n + 1) t from rfl, ih (n + 1)]
    rw [List.length_cons, List.range_succ_eq_map]
    simp only [List.map_cons, List.map_map, Nat.add_zero]
    congr 1
    apply map_ptwise
    intro a
    simp only [Function.comp]
    congr 1
    omega

/-! ### Lemmas: array-mode encoding -/

theorem lookupJ_filter (ks : List Str) :
    ∀ (rec : JRecord) (k : Str), k ∈ ks →
    lookupJ (rec.filter (fun p => decide (p.1 ∈ ks))) k = lookupJ rec k := by
  intro rec
  induction rec with
  | nil => intro k _; rfl
  | cons p rest ih =>
    intro k hk
    by_cases hp : p.1 ∈ ks
    · rw [show (p :: rest).filter (fun p => decide (p.1 ∈ ks))
          = p :: rest.filter (fun p => decide (p.1 ∈ ks)) from by simp [List.filter_cons, hp]]
      obtain ⟨k', v⟩ := p
      simp only [lookupJ]
      split
      · rfl
      · exact ih k hk
    · rw [show (p :: rest).filter (fun p => decide (p.1 ∈ ks))
          = rest.filter (fun p => decide (p.1 ∈ ks)) from by simp [List.filter_cons, hp]]
      obtain ⟨k', v⟩ := p
      have hne : k' ≠ k := fun hc => hp (by simpa [hc] using hk)
      rw [ih k hk]
      simp only [lookupJ, if_neg hne]

theorem foldl_append_lines (keys : List Str) (d : Char) :
    ∀ (arr : List JRecord) (acc : Str),
    arr.foldl (fun acc record =>
        acc ++ joinD d (keys.map (fun k => escapeValue (stringifyOpt (lookupJ record k)) d)) ++ ['\n']) acc
      = acc ++ (arr.map (fun record =>
          joinD d (keys.map (fun k => escapeValue (stringifyOpt (lookupJ record k)) d)) ++ ['\n'])).flatten := by
  intro arr
  induction arr with
  | nil => intro acc; simp
  | cons r rest ih =>
    intro acc
    simp only [List.foldl_cons, List.map_cons, List.flatten]
    rw [ih]
    simp

/-! ### Claim theorems -/

/-- C6: the decoder's output shaping: `"array"` always returns the full
ordered list of row records; `"object"` returns the first row record, or
the empty object when zero rows were produced; `"auto"` returns the single
row record exactly when one row was produced and otherwise the full list
(including the empty list for zero rows). -/
theorem claim_C6_output_shaping (records : List DRecord) :
    shapeOutput strArrayFmt records = .many records ∧
    shapeOutput strObjectFmt records = .one (records.headD []) ∧
    (records.length = 1 → shapeOutput strAuto records = .one (records.headD [])) ∧
    (records.length ≠ 1 → shapeOutput strAuto records = .many records) := by
  refine ⟨?_, ?_, ?_, ?_⟩
  · unfold shapeOutput
    rw [if_neg (by decide), if_neg (by decide)]
  · unfold shapeOutput
    rw [if_neg (by decide), if_pos rfl]
  · intro h
    unfold shapeOutput
    rw [if_pos rfl]
    rcases records with _ | ⟨r, _ | ⟨r', t⟩⟩
    · simp at h
    · rfl
    · simp at h
  · intro h
    unfold shapeOutput
    rw [if_pos rfl]
    rcases records with _ | ⟨r, _ | ⟨r', t⟩⟩
    · rfl
    · simp at h
    · rfl

theorem claim_C6_output_shaping_witness :
    shapeOutput strAuto [[(['a'], DValue.str ['x'])]] = .one [(['a'], DValue.str ['x'])] ∧
    shapeOutput strAuto ([] : List DRecord) = .many [] :=
  ⟨(claim_C6_output_shaping [[(['a'], DValue.str ['x'])]]).2.2.1 (by decide),
   (claim_C6_output_shaping []).2.2.2 (by decide)⟩

/-- C7: the decoder's type coercion checks numbers before booleans: for a
non-empty token, an enabled and successful numeric parse wins; otherwise an
enabled boolean parse applies to exactly `true`/`false`; otherwise the
token stays a string.  In particular `"true"` parses as `NaN` numerically
and still becomes the boolean `true`. -/
theorem claim_C7_coercion_order :
    (∀ (v : Str) (pn pb : Bool), v ≠ [] →
      ((pn = true ∧ (jsNumber v).isNaN = false) → coerceValue pn pb v = .num (jsNumber v)) ∧
      ((pn = false ∨ (jsNumber v).isNaN = true) → pb = true →
        coerceValue pn pb v =
          (if v = strTrue then .bool true else if v = strFalse then .bool false else .str v)) ∧
      ((pn = false ∨ (jsNumber v).isNaN = true) → pb = false → coerceValue pn pb v = .str v)) ∧
    jsNumber strTrue = JsNum.nan ∧ coerceValue true true strTrue = .bool true := by
  refine ⟨?_, by decide, by decide⟩
  intro v pn pb hv
  refine ⟨?_, ?_, ?_⟩
  · intro ⟨h1, h2⟩
    unfold coerceValue
    rw [if_pos ⟨h1, h2, hv⟩]
  · intro h hpb
    unfold coerceValue
    rw [if_neg (by rcases h with h | h <;> simp [h]), if_pos hpb]
  · intro h hpb
    unfold coerceValue
    rw [if_neg (by rcases h with h | h <;> simp [h]), if_neg (by simp [hpb])]

theorem claim_C7_coercion_order_witness :
    coerceValue true true ['t', 'r', 'u', 'e'] = .bool true ∧
    coerceValue true true ['3', '0'] = .num (jsNumber ['3', '0']) := by
  refine ⟨claim_C7_coercion_order.2.2, ?_⟩
  exact (claim_C7_coercion_order.1 ['3', '0'] true true (by decide)).1 ⟨rfl, by decide⟩

/-- C8: decoding empty or whitespace-only text yields the empty object for
`outputFormat="object"` and the empty list for `"array"` and `"auto"`, and
never raises an error (the parse returns a value in every case). -/
theorem claim_C8_empty_input (text : Str) (d sep : Char) (pn pb : Bool)
    (h : jsTrim text = []) :
    parseToon text d sep strObjectFmt pn pb = some (.one []) ∧
    parseToon text d sep strArrayFmt pn pb = some (.many []) ∧
    parseToon text d sep strAuto pn pb = some (.many []) := by
  have hsplit : splitOnChar '\n' (jsTrim text) = [[]] := by rw [h]; rfl
  have hsw : startsWithL atSchema (([[]] : List Str).headD []) = false := rfl
  have hdata : toonDataLines [[]] = [[]] := by
    unfold toonDataLines
    rw [List.headD_cons, if_neg (by rw [show startsWithL atSchema [] = false from rfl]; simp)]
  have hrows : ∀ keys, parseRows keys d sep pn pb [[]] = some [] := by
    intro keys
    unfold parseRows
    rw [if_pos (show jsTrim ([] : Str) = [] from rfl)]
    rfl
  refine ⟨?_, ?_, ?_⟩ <;>
    · unfold parseToon
      rw [hsplit]
      simp only [List.length_cons, List.length_nil, hdata, hrows]
      rfl

theorem claim_C8_empty_input_witness :
    parseToon [' ', '\n', '\t'] '|' '.' strObjectFmt true true = some (.one []) ∧
    parseToon [' ', '\n', '\t'] '|' '.' strArrayFmt true true = some (.many []) :=
  ⟨(claim_C8_empty_input [' ', '\n', '\t'] '|' '.' true true (by decide)).1,
   (claim_C8_empty_input [' ', '\n', '\t'] '|' '.' true true (by decide)).2.1⟩

/-- C9: when the first line of the (trimmed) decoded text does not start
with `@schema`, every line is kept as a data line, and the key list is
synthesized as `field0, field1, …`, one key per token of the first data
line under the active delimiter. -/
theorem claim_C9_schemaless_keys (text : Str) (d : Char)
    (h : startsWithL atSchema ((splitOnChar '\n' (jsTrim text)).headD []) = false) :
    toonDataLines (splitOnChar '\n' (jsTrim text)) = splitOnChar '\n' (jsTrim text) ∧
    toonKeys d (splitOnChar '\n' (jsTrim text))
      = (List.range (parseDelimitedLine ((splitOnChar '\n' (jsTrim text)).headD []) d).length).map
          fieldKey := by
  constructor
  · unfold toonDataLines
    rw [if_neg (show ¬(startsWithL atSchema
        ((splitOnChar '\n' (jsTrim text)).headD []) = true) from by rw [h]; simp)]
  · unfold toonKeys
    rw [if_neg (show ¬(startsWithL atSchema
        ((splitOnChar '\n' (jsTrim text)).headD []) = true) from by rw [h]; simp)]
    rw [mapWithIdx_eq_map_range]
    apply map_ptwise
    intro a
    simp

theorem claim_C9_schemaless_keys_witness :
    toonDataLines (splitOnChar '\n' (jsTrim ['a', '|', 'b'])) = [['a', '|', 'b']] ∧
    toonKeys '|' (splitOnChar '\n' (jsTrim ['a', '|', 'b']))
      = [['f', 'i', 'e', 'l', 'd', '0'], ['f', 'i', 'e', 'l', 'd', '1']] := by
  have h := claim_C9_schemaless_keys ['a', '|', 'b'] '|' (by decide)
  exact ⟨by rw [h.1]; decide, by rw [h.2]; decide⟩

/-- C10: in array-mode encoding of a non-empty array, the key list comes
solely from the first element's own top-level keys: keys appearing only in
later elements are ignored everywhere (dropping them from a later element
does not change the output), each data line is built from the first
element's keys in order, and a key missing in a row serializes as the
empty string. -/
theorem claim_C10_array_first_element_keys (d : Char) (inc : Bool)
    (r0 : JRecord) (rows : List JRecord) :
    convertArrayToToon (r0 :: rows) d inc
      = convertArrayToToon
          (r0 :: rows.map (fun r => r.filter (fun p => decide (p.1 ∈ r0.map Prod.fst)))) d inc ∧
    convertArrayToToon (r0 :: rows) d inc
      = jsTrim ((if inc then atSchema ++ d :: joinD d (r0.map Prod.fst) ++ ['\n'] else [])
          ++ ((r0 :: rows).map (fun record =>
              joinD d ((r0.map Prod.fst).map
                (fun k => escapeValue (stringifyOpt (lookupJ record k)) d)) ++ ['\n'])).flatten) ∧
    stringifyOpt none = [] := by
  have hshape : ∀ (rs : List JRecord),
      convertArrayToToon (r0 :: rs) d inc
        = jsTrim ((if inc then atSchema ++ d :: joinD d (r0.map Prod.fst) ++ ['\n'] else [])
            ++ ((r0 :: rs).map (fun record =>
                joinD d ((r0.map Prod.fst).map
                  (fun k => escapeValue (stringifyOpt (lookupJ record k)) d)) ++ ['\n'])).flatten) := by
    intro rs
    show jsTrim ((r0 :: rs).foldl (fun acc record =>
        acc ++ joinD d ((r0.map Prod.fst).map
          (fun k => escapeValue (stringifyOpt (lookupJ record k)) d)) ++ ['\n'])
        (if inc = true then atSchema ++ d :: joinD d (r0.map Prod.fst) ++ ['\n'] else []))
      = _
    rw [foldl_append_lines]
  have hmaps : ((r0 :: rows.map (fun r => r.filter (fun p => decide (p.1 ∈ r0.map Prod.fst)))).map
      (fun record => joinD d ((r0.map Prod.fst).map
        (fun k => escapeValue (stringifyOpt (lookupJ record k)) d)) ++ ['\n']))
      = ((r0 :: rows).map (fun record => joinD d ((r0.map Prod.fst).map
        (fun k => escapeValue (stringifyOpt (lookupJ record k)) d)) ++ ['\n'])) := by
    simp only [List.map_cons, List.map_map]
    congr 1
    apply map_ptwise
    intro r
    simp only [Function.comp_apply]
    have hkeys : List.map ((fun k => escapeValue (stringifyOpt (lookupJ
          (List.filter (fun p => decide (p.1 ∈ List.map Prod.fst r0)) r) k)) d) ∘ Prod.fst) r0
        = List.map ((fun k => escapeValue (stringifyOpt (lookupJ r k)) d) ∘ Prod.fst) r0 := by
      apply map_ptwise_mem
      intro p hp
      simp only [Function.comp_apply]
      rw [lookupJ_filter (r0.map Prod.fst) r p.1 (List.mem_map.mpr ⟨p, hp, rfl⟩)]
    rw [hkeys]
  refine ⟨?_, hshape rows, rfl⟩
  rw [hshape rows, hshape (rows.map (fun r => r.filter (fun p => decide (p.1 ∈ r0.map Prod.fst)))),
    hmaps]

/-- C1 (amended): object-mode round trip.  For a flat object with unique
keys and only primitive/array values, decoding the encoding (matching
delimiter, nested separator, `outputFormat="object"`, schema on)
reproduces the object with array fields joined by `,` and every leaf put
through the selected coercion flags — provided the delimiter is a
non-whitespace, non-quote character, keys avoid the delimiter, newlines
and the nested separator, each stringified value is newline-free and (when
left unquoted) quote-free, and the document-level `trim()` cannot clip the
final field (`lastFieldOk`).  Without those provisos the round trip fails
(see the counterexample: a trailing space is clipped). -/
theorem claim_C1_roundtrip_object (d sep : Char) (pn pb : Bool) (obj : JRecord)
    (hdq : d ≠ '"') (hdw : isWS d = false)
    (hflat : ∀ p ∈ obj, JValue.isObjV p.2 = false)
    (hnd : (obj.map Prod.fst).Nodup)
    (hkeys : ∀ k ∈ obj.map Prod.fst, d ∉ k ∧ '\n' ∉ k ∧ sep ∉ k)
    (hvals : ∀ p ∈ obj, goodField d (fieldStr p.2))
    (hlast : lastFieldOk d (obj.map (fun p => fieldStr p.2))) :
    parseToon (convertObjectToToon obj d sep true) d sep strObjectFmt pn pb
      = some (.one (obj.map (fun p => (p.1, coerceValue pn pb (fieldStr p.2))))) :=
  roundTripObjAux d sep pn pb obj hdq hdw hflat hnd hkeys hvals hlast

theorem claim_C1_roundtrip_object_witness :
    parseToon (convertObjectToToon
        [(['n', 'a', 'm', 'e'], JValue.str ['J', 'o', 'h', 'n']),
         (['a', 'g', 'e'], JValue.num 30),
         (['t', 'a', 'g', 's'], JValue.arr [JValue.str ['a'], JValue.str ['b']])]
        '|' '.' true) '|' '.' strObjectFmt true true
      = some (.one ([(['n', 'a', 'm', 'e'], JValue.str ['J', 'o', 'h', 'n']),
         (['a', 'g', 'e'], JValue.num 30),
         (['t', 'a', 'g', 's'], JValue.arr [JValue.str ['a'], JValue.str ['b']])].map
          (fun p => (p.1, coerceValue true true (fieldStr p.2))))) :=
  claim_C1_roundtrip_object '|' '.' true true _ (by decide) (by decide) (by decide)
    (by decide) (by decide) (by decide) (by decide)

theorem claim_C1_counterexample :
    parseToon (convertObjectToToon [(['a'], JValue.str ['x', ' '])] '|' '.' true)
        '|' '.' strObjectFmt true true
      = some (.one [(['a'], DValue.str ['x'])]) ∧
    coerceValue true true (fieldStr (JValue.str ['x', ' '])) = DValue.str ['x', ' '] ∧
    DValue.str ['x'] ≠ DValue.str ['x', ' '] := by decide

/-- C2 (amended): a string value containing the active delimiter or a
newline is emitted quoted with internal quotes doubled; decoding recovers
the original string exactly (embedded quotes included) when the value
contains the delimiter but no newline and type coercion is off — a value
with an embedded newline is split by the decoder's line splitting and not
recovered (see the counterexample). -/
theorem claim_C2_escape_roundtrip (d : Char) (k s : Str)
    (hdq : d ≠ '"') (hdw : isWS d = false)
    (hsd : d ∈ s) (hsn : '\n' ∉ s)
    (hk : d ∉ k ∧ '\n' ∉ k ∧ '.' ∉ k) :
    escapeValue s d = '"' :: doubled s ++ ['"'] ∧
    parseToon (convertObjectToToon [(k, JValue.str s)] d '.' true) d '.' strObjectFmt false false
      = some (.one [(k, DValue.str s)]) := by
  refine ⟨escapeValue_quoted s d (Or.inl hsd), ?_⟩
  have h := roundTripObjAux d '.' false false [(k, JValue.str s)] hdq hdw
    (by intro p hp; rcases List.mem_cons.mp hp with rfl | hp
        · rfl
        · simp at hp)
    (by simp)
    (by intro k' hk'
        have hkk : k' = k := by simpa using hk'
        subst hkk
        exact hk)
    (by intro p hp
        rcases List.mem_cons.mp hp with rfl | hp
        · exact ⟨hsn, Or.inl hsd⟩
        · simp at hp)
    (by unfold lastFieldOk
        refine Or.inr (Or.inl ?_)
        simpa using hsd)
  rw [h]
  rfl

theorem claim_C2_escape_roundtrip_witness :
    parseToon (convertObjectToToon [(['a'], JValue.str ['x', '|', 'y'])] '|' '.' true)
        '|' '.' strObjectFmt false false
      = some (.one [(['a'], DValue.str ['x', '|', 'y'])]) :=
  (claim_C2_escape_roundtrip '|' ['a'] ['x', '|', 'y'] (by decide) (by decide)
    (by decide) (by decide) (by decide)).2

theorem claim_C2_counterexample :
    escapeValue ['x', '\n', 'y'] '|' = ['"', 'x', '\n', 'y', '"'] ∧
    parseToon (convertObjectToToon [(['a'], JValue.str ['x', '\n', 'y'])] '|' '.' true)
        '|' '.' strObjectFmt false false
      = some (.one [(['a'], DValue.str ['x'])]) ∧
    DValue.str ['x'] ≠ DValue.str ['x', '\n', 'y'] := by decide

/-- C3 (amended): the delimited-line tokenizer is a left inverse of the
field-escaping function for every single-character delimiter, provided
that a value left unquoted (containing neither the delimiter nor a
newline) contains no double-quote character; a bare quote in an unquoted
value is eaten by the state machine (see the counterexample). -/
theorem claim_C3_tokenizer_inverts_escape (s : Str) (d : Char)
    (h : d ∈ s ∨ '\n' ∈ s ∨ '"' ∉ s) :
    parseDelimitedLine (escapeValue s d) d = [s] := by
  by_cases hq : d ∈ s ∨ '\n' ∈ s
  · rw [escapeValue_quoted s d hq]
    unfold parseDelimitedLine
    rw [show ('"' :: doubled s ++ ['"'] : Str) = '"' :: (doubled s ++ '"' :: []) from by simp,
      pdlAux_quote_open, pdl_doubled, pdlAux_quote_close d [] ([] ++ s) (by simp)]
    simp [pdlAux]
  · push_neg at hq
    have hnq : '"' ∉ s := by
      rcases h with h | h | h
      · exact absurd h hq.1
      · exact absurd h hq.2
      · exact h
    rw [escapeValue_plain s d (by push_neg; exact hq)]
    unfold parseDelimitedLine
    have hrun := pdl_plain_run d s [] []
      (fun c hc => ⟨fun h' => hnq (h' ▸ hc), fun h' => hq.1 (h' ▸ hc)⟩)
    simpa [pdlAux] using hrun

theorem claim_C3_tokenizer_inverts_escape_witness :
    parseDelimitedLine (escapeValue ['a', '|', '"', 'b'] '|') '|' = [['a', '|', '"', 'b']] :=
  claim_C3_tokenizer_inverts_escape ['a', '|', '"', 'b'] '|' (Or.inl (by decide))

theorem claim_C3_counterexample :
    escapeValue ['"'] '|' = ['"'] ∧
    parseDelimitedLine (escapeValue ['"'] '|') '|' = [[]] ∧
    ([[]] : List Str) ≠ [['"']] := by decide

/-- C4 (amended): during nested-key assignment, an intermediate segment
already holding a scalar is NOT overwritten with a fresh empty object: the
code creates an intermediate object only when the key is entirely absent,
and otherwise descends into the existing value, so a scalar intermediate
makes the strict-mode assignment throw a `TypeError` (modelled as `none`)
instead of re-creating the level. -/
theorem claim_C4_nested_scalar_intermediate :
    (∀ (rec : DRecord) (k : Str) (k2 : List Str) (v w : DValue),
      k2 ≠ [] → lookupD rec k = some w → w.isObjD = false →
      setNestedValue rec (k :: k2) v = none) ∧
    (∀ (rec : DRecord) (k : Str) (k2 : List Str) (v : DValue),
      k2 ≠ [] → lookupD rec k = none →
      setNestedValue rec (k :: k2) v
        = (setNestedValue [] k2 v).map (fun sub => setKeyD rec k (.obj sub))) := by
  constructor
  · intro rec k k2 v w hne hl hw
    cases k2 with
    | nil => exact absurd rfl hne
    | cons a t =>
      unfold setNestedValue
      rw [hl]
      cases w with
      | obj fs => simp [DValue.isObjD] at hw
      | str s => rfl
      | num x => rfl
      | bool b => rfl
  · intro rec k k2 v hne hl
    cases k2 with
    | nil => exact absurd rfl hne
    | cons a t =>
      show (match lookupD rec k with
        | none => (setNestedValue [] (a :: t) v).map (fun sub => setKeyD rec k (.obj sub))
        | some (.obj sub) => (setNestedValue sub (a :: t) v).map (fun sub' => setKeyD rec k (.obj sub'))
        | some _ => none)
        = (setNestedValue [] (a :: t) v).map (fun sub => setKeyD rec k (.obj sub))
      rw [hl]

theorem claim_C4_witness :
    setNestedValue [(['a'], DValue.num (.fin 5))] [['a'], ['b']] (DValue.str ['x']) = none :=
  claim_C4_nested_scalar_intermediate.1 [(['a'], DValue.num (.fin 5))] ['a'] [['b']]
    (DValue.str ['x']) (DValue.num (.fin 5)) (by decide) (by decide) (by decide)

theorem claim_C4_counterexample :
    setNestedValue [(['a'], DValue.num (.fin 5))] [['a'], ['b']] (DValue.str ['x']) = none ∧
    setNestedValue [(['a'], DValue.num (.fin 5))] [['a'], ['b']] (DValue.str ['x'])
      ≠ some [(['a'], DValue.obj [(['b'], DValue.str ['x'])])] := by decide

/-- C5: `estimateTokenSavings` computes `ceil(len/4)` token counts and the
percentage with one decimal; on a zero-length JSON string the division is
`0/0`, and the code propagates `NaN` into the output string instead of
reporting a guarded value: the result is `~NaN% token reduction`. -/
theorem claim_C5_token_savings_nan :
    estimateTokenSavings [] []
      = ['~', 'N', 'a', 'N', '%', ' ', 't', 'o', 'k', 'e', 'n', ' ',
         'r', 'e', 'd', 'u', 'c', 't', 'i', 'o', 'n'] ∧
    estimateTokenSavings ['0', '1', '2', '3', '4', '5', '6', '7', '8', '9'] ['0', '1', '2', '3']
      = ['~', '6', '6', '.', '7', '%', ' ', 't', 'o', 'k', 'e', 'n', ' ',
         'r', 'e', 'd', 'u', 'c', 't', 'i', 'o', 'n'] := by
  constructor
  · unfold estimateTokenSavings
    norm_num [jsDivQ, jsMul, toFixed1, strNaN, pctSuffix]
  · unfold estimateTokenSavings
    norm_num [jsDivQ, jsMul, toFixed1, fixed1, Rat.floor_def', natDigits, pctSuffix]
    decide
